import Mathlib

/-!
Shallow embedding of `src/app7.py`, a single-writer hash-linked pension
ledger with a projection calculator, together with proofs of its spec.

Modelling conventions:
* Python `float` values are modelled as exact rationals (`ℚ`); Python `int`
  as `Int`/`Nat`; Python `str` as `String`.
* `hashlib.sha256(...).hexdigest()` is implemented in full as `SHA256.sha256hex`
  on the UTF-8 bytes of the input string.
* The dataclass default `timestamp: str = datetime.datetime.now().strftime(...)`
  is evaluated once, when the class object is created; every `Block` built
  without an explicit timestamp therefore shares that single string.  The
  embedding makes this one-time value an explicit parameter `ts` that is fixed
  for a whole session (genesis block and all appended blocks use the same `ts`).
* Python's dataclass `repr` of a `PensionRecord` (used inside the hashed
  string) is rendered by `reprRecord`; the numeric rendering of the rational
  stand-ins is `reprQ` (exact `num/den` text in place of Python float repr --
  deterministic, like the original, and with the same separator structure).
-/

namespace PensionChain

/-- `PensionRecord` dataclass from `src/app7.py`: one year's accrual inputs. -/
structure PensionRecord where
  year : Int
  salary : ℚ
  accrual_rate : ℚ
  cpi_index : ℚ
deriving DecidableEq

/-- `PensionRecord.calculate_unit`: `(salary * accrual_rate) * (1 + cpi_index)`. -/
def PensionRecord.calculate_unit (r : PensionRecord) : ℚ :=
  (r.salary * r.accrual_rate) * (1 + r.cpi_index)

namespace SHA256

/-- Right rotation of a 32-bit word (input assumed `< 2^32`). -/
def rotr (n x : Nat) : Nat :=
  ((x >>> n) ||| (x <<< (32 - n))) % 4294967296

/-- The 64 SHA-256 round constants (decimal). -/
def roundK : List Nat :=
  [1116352408, 1899447441, 3049323471, 3921009573, 961987163, 1508970993,
   2453635748, 2870763221, 3624381080, 310598401, 607225278, 1426881987,
   1925078388, 2162078206, 2614888103, 3248222580, 3835390401, 4022224774,
   264347078, 604807628, 770255983, 1249150122, 1555081692, 1996064986,
   2554220882, 2821834349, 2952996808, 3210313671, 3336571891, 3584528711,
   113926993, 338241895, 666307205, 773529912, 1294757372, 1396182291,
   1695183700, 1986661051, 2177026350, 2456956037, 2730485921, 2820302411,
   3259730800, 3345764771, 3516065817, 3600352804, 4094571909, 275423344,
   430227734, 506948616, 659060556, 883997877, 958139571, 1322822218,
   1537002063, 1747873779, 1955562222, 2024104815, 2227730452, 2361852424,
   2428436474, 2756734187, 3204031479, 3329325298]

/-- Big sigma-0. -/
def bigS0 (x : Nat) : Nat := rotr 2 x ^^^ rotr 13 x ^^^ rotr 22 x

/-- Big sigma-1. -/
def bigS1 (x : Nat) : Nat := rotr 6 x ^^^ rotr 11 x ^^^ rotr 25 x

/-- Small sigma-0. -/
def smallS0 (x : Nat) : Nat := rotr 7 x ^^^ rotr 18 x ^^^ (x >>> 3)

/-- Small sigma-1. -/
def smallS1 (x : Nat) : Nat := rotr 17 x ^^^ rotr 19 x ^^^ (x >>> 10)

/-- SHA-256 padding: append `0x80`, zeros, and the 64-bit big-endian bit length,
reaching a multiple of 64 bytes. -/
def pad (msg : List Nat) : List Nat :=
  let len := msg.length
  let zeros := (119 - len % 64) % 64
  msg ++ 0x80 :: (List.replicate zeros 0 ++
    [56, 48, 40, 32, 24, 16, 8, 0].map (fun s => ((8 * len) >>> s) % 256))

/-- Split a byte list into 64-byte chunks (`fuel` bounds the recursion; it is
instantiated with the list length, which each step strictly decreases). -/
def chunksAux : Nat → List Nat → List (List Nat)
  | 0, _ => []
  | _, [] => []
  | fuel + 1, a :: rest =>
      (a :: rest).take 64 :: chunksAux fuel ((a :: rest).drop 64)

/-- Split a byte list into 64-byte chunks. -/
def chunks (l : List Nat) : List (List Nat) :=
  chunksAux l.length l

/-- Big-endian 32-bit words from bytes. -/
def wordsOf : List Nat → List Nat
  | b0 :: b1 :: b2 :: b3 :: rest =>
      ((b0 <<< 24) ||| (b1 <<< 16) ||| (b2 <<< 8) ||| b3) :: wordsOf rest
  | _ => []

/-- One message-schedule extension step: append word `w[n] = w[n-16] + s0(w[n-15]) + w[n-7] + s1(w[n-2])`. -/
def extendStep (w : List Nat) : List Nat :=
  let n := w.length
  w ++ [(w.getD (n - 16) 0 + smallS0 (w.getD (n - 15) 0) +
         w.getD (n - 7) 0 + smallS1 (w.getD (n - 2) 0)) % 4294967296]

/-- The 64-word message schedule from the 16 chunk words. -/
def schedule (w16 : List Nat) : List Nat :=
  (List.range 48).foldl (fun w _ => extendStep w) w16

/-- Working state: eight 32-bit words. -/
structure Hstate where
  a : Nat
  b : Nat
  c : Nat
  d : Nat
  e : Nat
  f : Nat
  g : Nat
  h : Nat

/-- One compression round with round constant `kc` and schedule word `wc`. -/
def round (s : Hstate) (kc wc : Nat) : Hstate :=
  let ch := (s.e &&& s.f) ^^^ ((4294967295 ^^^ s.e) &&& s.g)
  let temp1 := (s.h + bigS1 s.e + ch + kc + wc) % 4294967296
  let maj := (s.a &&& s.b) ^^^ (s.a &&& s.c) ^^^ (s.b &&& s.c)
  let temp2 := (bigS0 s.a + maj) % 4294967296
  ⟨(temp1 + temp2) % 4294967296, s.a, s.b, s.c,
   (s.d + temp1) % 4294967296, s.e, s.f, s.g⟩

/-- Compress one 64-byte chunk into the running state. -/
def compress (hs : Hstate) (chunk : List Nat) : Hstate :=
  let w := schedule (wordsOf chunk)
  let s := (roundK.zip w).foldl (fun s kw => round s kw.1 kw.2) hs
  ⟨(hs.a + s.a) % 4294967296, (hs.b + s.b) % 4294967296,
   (hs.c + s.c) % 4294967296, (hs.d + s.d) % 4294967296,
   (hs.e + s.e) % 4294967296, (hs.f + s.f) % 4294967296,
   (hs.g + s.g) % 4294967296, (hs.h + s.h) % 4294967296⟩

/-- SHA-256 initial state (decimal). -/
def initH : Hstate :=
  ⟨1779033703, 3144134277, 1013904242, 2773480762,
   1359893119, 2600822924, 528734635, 1541459225⟩

/-- SHA-256 over a byte list, as the final working state. -/
def sha256Words (msg : List Nat) : Hstate :=
  (chunks (pad msg)).foldl compress initH

/-- Lower-case hex digit. -/
def hexDigit (n : Nat) : Char :=
  if n < 10 then Char.ofNat (48 + n) else Char.ofNat (87 + n)

/-- Eight hex digits of a 32-bit word, most significant first. -/
def hexWord (x : Nat) : List Char :=
  (List.range 8).map (fun i => hexDigit ((x >>> (28 - 4 * i)) % 16))

/-- The 64-character hex digest of a final state. -/
def digestHex (s : Hstate) : String :=
  String.mk (hexWord s.a ++ hexWord s.b ++ hexWord s.c ++ hexWord s.d ++
             hexWord s.e ++ hexWord s.f ++ hexWord s.g ++ hexWord s.h)

/-- UTF-8 bytes of one character (as in Python `str.encode()`). -/
def utf8Char (c : Char) : List Nat :=
  let n := c.toNat
  if n < 128 then [n]
  else if n < 2048 then [192 ||| (n >>> 6), 128 ||| (n &&& 63)]
  else if n < 65536 then
    [224 ||| (n >>> 12), 128 ||| ((n >>> 6) &&& 63), 128 ||| (n &&& 63)]
  else
    [240 ||| (n >>> 18), 128 ||| ((n >>> 12) &&& 63),
     128 ||| ((n >>> 6) &&& 63), 128 ||| (n &&& 63)]

/-- UTF-8 bytes of a string. -/
def utf8Bytes (s : String) : List Nat :=
  (s.data.map utf8Char).flatten

/-- `hashlib.sha256(s.encode()).hexdigest()`. -/
def sha256hex (s : String) : String :=
  digestHex (sha256Words (utf8Bytes s))

end SHA256

/-- `Block` dataclass from `src/app7.py`. -/
structure Block where
  index : Nat
  record : PensionRecord
  prev_hash : String
  timestamp : String
deriving DecidableEq

/-- Rendering of the rational stand-in for a Python float (deterministic text). -/
def reprQ (q : ℚ) : String :=
  if q.den = 1 then toString q.num else toString q.num ++ "/" ++ toString q.den

/-- Model of Python's dataclass `repr` of a `PensionRecord`, as interpolated by
`f"...{self.record}..."` in `Block.hash_block`. -/
def reprRecord (r : PensionRecord) : String :=
  "PensionRecord(year=" ++ toString r.year ++ ", salary=" ++ reprQ r.salary ++
  ", accrual_rate=" ++ reprQ r.accrual_rate ++
  ", cpi_index=" ++ reprQ r.cpi_index ++ ")"

/-- The f-string `f"{self.index}{self.record}{self.prev_hash}{self.timestamp}"`
that `Block.hash_block` digests. -/
def blockString (b : Block) : String :=
  toString b.index ++ reprRecord b.record ++ b.prev_hash ++ b.timestamp

/-- `Block.hash_block`: SHA-256 hex digest of the block string. -/
def Block.hash_block (b : Block) : String :=
  SHA256.sha256hex (blockString b)

/-- The genesis sentinel record `PensionRecord(2023, 0.0, 0.0, 0.0)`. -/
def genesis_record : PensionRecord := ⟨2023, 0, 0, 0⟩

/-- The genesis block `Block(0, genesis_record, "0")`; `ts` is the
class-definition-time timestamp default. -/
def genesisBlock (ts : String) : Block := ⟨0, genesis_record, "0", ts⟩

/-- The session-start chain `[Block(0, genesis_record, "0")]`. -/
def initialChain (ts : String) : List Block := [genesisBlock ts]

/-- The append handler: `prev_hash = chain[-1].hash_block()`,
`new_block = Block(len(chain), record, prev_hash)`, then `chain.append(new_block)`.
`chain[-1]` on an empty list raises, so the empty case returns `none`. -/
def appendRecord (ts : String) (chain : List Block) (r : PensionRecord) :
    Option (List Block) :=
  match chain.getLast? with
  | none => none
  | some last => some (chain ++ [⟨chain.length, r, last.hash_block, ts⟩])

/-- `Builds ts rs c`: chain `c` results from the genesis-only chain by
appending the records `rs` in order, every block stamped with the single
value `ts` — an idealization in which all script runs evaluate the same
class timestamp default.  Timestamps play no role in the hash-chain
structure theorems proved over this relation; the per-rerun relation
`BuildsR` below drops the idealization. -/
inductive Builds (ts : String) : List PensionRecord → List Block → Prop where
  | nil : Builds ts [] (initialChain ts)
  | snoc {rs c r c'} : Builds ts rs c → appendRecord ts c r = some c' →
      Builds ts (rs ++ [r]) c'

/-- A chain is reachable when some finite sequence of appends builds it. -/
def Reachable (ts : String) (c : List Block) : Prop :=
  ∃ rs, Builds ts rs c

/-- `BuildsR ts0 steps c`: the faithful session history.  Streamlit re-runs
the whole script on every interaction, re-executing the `Block` class
definition and hence re-evaluating its `datetime.now()` timestamp default:
the genesis block is created in the session's first run (default `ts0`),
and each append executes in its own later rerun, whose freshly evaluated
default is recorded alongside the appended record in `steps`. -/
inductive BuildsR (ts0 : String) :
    List (String × PensionRecord) → List Block → Prop where
  | nil : BuildsR ts0 [] (initialChain ts0)
  | snoc {steps c ts r c'} : BuildsR ts0 steps c →
      appendRecord ts c r = some c' → BuildsR ts0 (steps ++ [(ts, r)]) c'

/-- `total_pension_raw = sum(b.record.calculate_unit() for b in chain[1:])`. -/
def total_pension_raw (chain : List Block) : ℚ :=
  ((chain.drop 1).map (fun b => b.record.calculate_unit)).sum

/-- The projection outputs of the calculation section of `src/app7.py`. -/
structure Projection where
  rawTotal : ℚ
  finalPension : ℚ
  reductionApplied : ℚ
  earlyRetirement : Bool
deriving DecidableEq

/-- The calculation block: `if retire_age < npa` then
`total_reduction = (npa - retire_age) * reduction_rate` and
`final_pension = total_pension_raw * (1 - total_reduction)`, else the raw total
is awarded in full (no reduction). -/
def computeProjection (chain : List Block) (npa retire_age : Int)
    (reduction_rate : ℚ) : Projection :=
  let raw := total_pension_raw chain
  if retire_age < npa then
    let years_early : Int := npa - retire_age
    let total_reduction : ℚ := (years_early : ℚ) * reduction_rate
    ⟨raw, raw * (1 - total_reduction), total_reduction, true⟩
  else
    ⟨raw, raw, 0, false⟩

/-- Modelled from the spec: helper walk of `verify()` (absent from `src/app7.py`).
Starting after a trusted predecessor `prev` at position `i`, check that each
block carries the expected dense index and that its `prev_hash` equals the
recomputed hash of its predecessor; return the first failing position. -/
def verifyGo (prev : Block) (i : Nat) : List Block → Option Nat
  | [] => none
  | b :: bs =>
      if b.index = i ∧ b.prev_hash = Block.hash_block prev then verifyGo b (i + 1) bs
      else some i

/-- Modelled from the spec: `verify()` is described in the spec but not
implemented in `src/app7.py`.  It walks the chain from genesis forward,
recomputing each block's hash and confirming `block[i].prev_hash` equals the
recomputed hash of `block[i-1]` for all `i > 0` and that indices are dense and
sequential; it returns `none` on success and `some i`, the first point of
divergence, on failure. -/
def verifyChain : List Block → Option Nat
  | [] => none
  | b :: bs => if b.index = 0 then verifyGo b 1 bs else some 0

/-- Propositional form of a well-linked chain segment: after predecessor `prev`
at position `i`, indices are dense and each `prev_hash` matches the recomputed
predecessor hash. -/
def ChainOk (prev : Block) : Nat → List Block → Prop
  | _, [] => True
  | i, b :: bs => b.index = i ∧ b.prev_hash = Block.hash_block prev ∧
      ChainOk b (i + 1) bs

/-- Demo record used by concrete witnesses: year 2025, salary 50000,
accrual 1/49, CPI 2%. -/
def demoRecord : PensionRecord := ⟨2025, 50000, 1/49, 2/100⟩

/-- A fixed demo timestamp for concrete witnesses. -/
def demoTs : String := "T"

/-- The chain obtained from the genesis-only ledger by one append of
`demoRecord`. -/
def demoChain : List Block :=
  initialChain demoTs ++
    [⟨1, demoRecord, Block.hash_block (genesisBlock demoTs), demoTs⟩]

/-- A tampered replacement block (wrong index) used by concrete witnesses. -/
def tamperBlock : Block := ⟨5, demoRecord, "x", demoTs⟩

/-- A second demo timestamp: the default evaluated by a later rerun. -/
def rerunTs : String := "U"

/-- The block appended in a rerun whose timestamp default is `rerunTs`. -/
def rerunBlock : Block :=
  ⟨1, demoRecord, Block.hash_block (genesisBlock demoTs), rerunTs⟩

/-- A chain whose genesis was created in the first run (default `demoTs`) and
whose one appended block comes from a rerun with default `rerunTs`. -/
def demoChainR : List Block := initialChain demoTs ++ [rerunBlock]

/-! ### Helper lemmas -/

theorem chainOk_nil (prev : Block) (i : Nat) : ChainOk prev i [] := trivial

theorem chainOk_cons {prev b : Block} {i : Nat} {bs : List Block} :
    ChainOk prev i (b :: bs) ↔
      b.index = i ∧ b.prev_hash = Block.hash_block prev ∧ ChainOk b (i + 1) bs :=
  Iff.rfl

theorem verifyGo_cons (prev b : Block) (i : Nat) (bs : List Block) :
    verifyGo prev i (b :: bs) =
      if b.index = i ∧ b.prev_hash = Block.hash_block prev then verifyGo b (i + 1) bs
      else some i := rfl

theorem getLast?_cons_getLastD (a : Block) (l : List Block) :
    (a :: l).getLast? = some (l.getLastD a) := by
  induction l generalizing a with
  | nil => rfl
  | cons b l ih => rw [List.getLast?_cons_cons, ih, List.getLastD_cons]

theorem appendRecord_eq {ts : String} {chain : List Block} {r : PensionRecord}
    {c' : List Block} (h : appendRecord ts chain r = some c') :
    ∃ last, chain.getLast? = some last ∧
      c' = chain ++ [⟨chain.length, r, last.hash_block, ts⟩] := by
  unfold appendRecord at h
  cases hl : chain.getLast? with
  | none => rw [hl] at h; exact absurd h (by simp)
  | some last =>
      rw [hl] at h
      exact ⟨last, rfl, by injection h with h; exact h.symm⟩

theorem chainOk_snoc {bs : List Block} {prev : Block} {i : Nat} {b : Block}
    (h : ChainOk prev i bs) (hidx : b.index = i + bs.length)
    (hph : b.prev_hash = Block.hash_block (bs.getLastD prev)) :
    ChainOk prev i (bs ++ [b]) := by
  induction bs generalizing prev i with
  | nil => exact ⟨by simpa using hidx, by simpa using hph, trivial⟩
  | cons x xs ih =>
      obtain ⟨h1, h2, h3⟩ := h
      refine ⟨h1, h2, ih h3 ?_ ?_⟩
      · simp only [List.length_cons] at hidx ⊢
        omega
      · rwa [List.getLastD_cons] at hph

/-- Master invariant: a built chain is the genesis block followed by a
well-linked tail whose records are exactly the appended records, and every
block carries the shared timestamp. -/
theorem builds_shape {ts : String} {rs : List PensionRecord} {c : List Block}
    (h : Builds ts rs c) :
    ∃ tail, c = genesisBlock ts :: tail ∧ ChainOk (genesisBlock ts) 1 tail ∧
      tail.map (fun b => b.record) = rs ∧ ∀ b ∈ c, b.timestamp = ts := by
  induction h with
  | nil =>
      refine ⟨[], rfl, trivial, rfl, ?_⟩
      intro b hb
      simp only [initialChain, List.mem_singleton] at hb
      rw [hb]
      rfl
  | snoc hb happ ih =>
      obtain ⟨tail, rfl, hok, hrec, hts⟩ := ih
      obtain ⟨last, hlast, rfl⟩ := appendRecord_eq happ
      rw [getLast?_cons_getLastD] at hlast
      injection hlast with hlast
      rw [List.cons_append]
      refine ⟨tail ++ [⟨(genesisBlock ts :: tail).length, _, last.hash_block, ts⟩],
        rfl, ?_, ?_, ?_⟩
      · refine chainOk_snoc hok ?_ ?_
        · show (genesisBlock ts :: tail).length = 1 + tail.length
          simp only [List.length_cons]
          omega
        · show last.hash_block = _
          rw [hlast]
      · simp [hrec]
      · intro b hb
        simp only [List.mem_cons, List.mem_append] at hb
        rcases hb with h1 | h1 | h1 | h1
        · rw [h1]
          rfl
        · exact hts b (List.mem_cons_of_mem _ h1)
        · rw [h1]
        · exact absurd h1 (List.not_mem_nil b)

theorem builds_ne_nil {ts : String} {rs : List PensionRecord} {c : List Block}
    (h : Builds ts rs c) : c ≠ [] := by
  obtain ⟨tail, rfl, -, -, -⟩ := builds_shape h
  simp

theorem chainOk_get_index {bs : List Block} {prev : Block} {i : Nat}
    (h : ChainOk prev i bs) :
    ∀ k (hk : k < bs.length), (bs.get ⟨k, hk⟩).index = i + k := by
  induction bs generalizing prev i with
  | nil => intro k hk; simp at hk
  | cons b bs ih =>
      intro k hk
      obtain ⟨h1, h2, h3⟩ := h
      cases k with
      | zero => simpa using h1
      | succ k =>
          rw [List.get_cons_succ, ih h3 k (by simpa using hk)]
          omega

theorem chainOk_get_link {bs : List Block} {prev : Block} {i : Nat}
    (h : ChainOk prev i bs) :
    ∀ k (hk : k + 1 < bs.length),
      (bs.get ⟨k + 1, hk⟩).prev_hash =
        Block.hash_block (bs.get ⟨k, by omega⟩) := by
  induction bs generalizing prev i with
  | nil => intro k hk; simp at hk
  | cons b bs ih =>
      intro k hk
      obtain ⟨h1, h2, h3⟩ := h
      cases k with
      | zero =>
          cases bs with
          | nil => simp at hk
          | cons b2 bs2 =>
              obtain ⟨g1, g2, g3⟩ := h3
              simpa using g2
      | succ k =>
          rw [List.get_cons_succ, List.get_cons_succ]
          exact ih h3 k (by simpa using hk)

theorem verifyGo_of_chainOk {bs : List Block} {prev : Block} {i : Nat}
    (h : ChainOk prev i bs) : verifyGo prev i bs = none := by
  induction bs generalizing prev i with
  | nil => rfl
  | cons b bs ih =>
      obtain ⟨h1, h2, h3⟩ := h
      rw [verifyGo_cons, if_pos ⟨h1, h2⟩]
      exact ih h3

theorem verifyChain_cons (b : Block) (bs : List Block) :
    verifyChain (b :: bs) = if b.index = 0 then verifyGo b 1 bs else some 0 := rfl

/-- Replacing a block inside a well-linked segment by one whose hash, index or
prev-hash field differs is caught by the walk at the replaced position or at
its successor. -/
theorem verifyGo_set {bs : List Block} {prev : Block} {i : Nat}
    (h : ChainOk prev i bs) :
    ∀ k (hk : k + 1 < bs.length) (b' : Block),
      (Block.hash_block b' ≠ Block.hash_block (bs.get ⟨k, by omega⟩) ∨
       b'.index ≠ (bs.get ⟨k, by omega⟩).index ∨
       b'.prev_hash ≠ (bs.get ⟨k, by omega⟩).prev_hash) →
      ∃ j, verifyGo prev i (bs.set k b') = some j ∧
        (j = i + k ∨ j = i + k + 1) := by
  induction bs generalizing prev i with
  | nil => intro k hk; simp at hk
  | cons b bs ih =>
      intro k hk b' hd
      obtain ⟨h1, h2, h3⟩ := h
      cases k with
      | zero =>
          rw [List.set_cons_zero]
          by_cases hc : b'.index = i ∧ b'.prev_hash = Block.hash_block prev
          · obtain ⟨hc1, hc2⟩ := hc
            have hdh : Block.hash_block b' ≠ Block.hash_block b := by
              rcases hd with hx | hx | hx
              · exact hx
              · exact absurd (hc1.trans h1.symm) hx
              · exact absurd (hc2.trans h2.symm) hx
            cases bs with
            | nil => simp at hk
            | cons b2 bs2 =>
                obtain ⟨g1, g2, g3⟩ := h3
                refine ⟨i + 1, ?_, Or.inr rfl⟩
                rw [verifyGo_cons, if_pos ⟨hc1, hc2⟩, verifyGo_cons, if_neg ?_]
                rintro ⟨-, hph⟩
                exact hdh (hph.symm.trans g2)
          · exact ⟨i, by rw [verifyGo_cons, if_neg hc], Or.inl rfl⟩
      | succ k =>
          rw [List.set_cons_succ, verifyGo_cons, if_pos ⟨h1, h2⟩]
          obtain ⟨j, hj, hor⟩ := ih h3 k (by simpa using hk) b' hd
          exact ⟨j, hj, by omega⟩

/-! ### Claim theorems -/

/-- C3: projection computation — with early retirement
(`retire_age < npa`) the reduction applied is
`(npa - retire_age) * reduction_rate` and the final pension is
`rawTotal * (1 - reduction)`; at or after normal pension age the raw total is
awarded in full with zero reduction; and for NPA 67, retirement at 65, rate
4%, the final pension is `rawTotal * 0.92`. -/
theorem projection_formula (chain : List Block) (npa retire_age : Int)
    (rr : ℚ) :
    (retire_age < npa →
      (computeProjection chain npa retire_age rr).reductionApplied =
        ((npa - retire_age : Int) : ℚ) * rr ∧
      (computeProjection chain npa retire_age rr).finalPension =
        total_pension_raw chain * (1 - ((npa - retire_age : Int) : ℚ) * rr)) ∧
    (npa ≤ retire_age →
      (computeProjection chain npa retire_age rr).finalPension =
        total_pension_raw chain ∧
      (computeProjection chain npa retire_age rr).reductionApplied = 0) ∧
    (computeProjection chain 67 65 (4/100)).finalPension =
      total_pension_raw chain * (92/100) := by
  refine ⟨?_, ?_, ?_⟩
  · intro hlt
    simp only [computeProjection, if_pos hlt]
    exact ⟨trivial, trivial⟩
  · intro hge
    simp only [computeProjection, if_neg (not_lt.mpr hge)]
    exact ⟨trivial, trivial⟩
  · simp only [computeProjection, if_pos (show (65 : Int) < 67 by norm_num)]
    show total_pension_raw chain * (1 - ((67 - 65 : Int) : ℚ) * (4/100)) =
      total_pension_raw chain * (92/100)
    norm_num

/-- Witness for C3 at a concrete ledger and concrete parameters. -/
theorem projection_formula_witness :
    (computeProjection (initialChain demoTs) 67 65 (4/100)).finalPension =
      total_pension_raw (initialChain demoTs) *
        (1 - ((67 - 65 : Int) : ℚ) * (4/100)) ∧
    (computeProjection (initialChain demoTs) 67 70 (4/100)).finalPension =
      total_pension_raw (initialChain demoTs) :=
  ⟨((projection_formula (initialChain demoTs) 67 65 (4/100)).1
      (by norm_num)).2,
   ((projection_formula (initialChain demoTs) 67 70 (4/100)).2.1
      (by norm_num)).1⟩

/-- C4: aggregation correctness — for any chain built by appends, the raw
total is the sum of `calculate_unit` over exactly the appended (non-genesis)
records, so the genesis record never contributes; the genesis-only ledger
totals zero. -/
theorem aggregation (ts : String) (rs : List PensionRecord)
    (chain : List Block) (h : Builds ts rs chain) :
    total_pension_raw chain =
      (rs.map (fun r => r.calculate_unit)).sum ∧
    total_pension_raw (initialChain ts) = 0 := by
  obtain ⟨tail, rfl, -, hrec, -⟩ := builds_shape h
  constructor
  · rw [total_pension_raw]
    simp only [List.drop_succ_cons, List.drop_zero]
    rw [← hrec, List.map_map]
    rfl
  · rfl

/-- Witness for C4 at a concrete one-append ledger. -/
theorem aggregation_witness :
    total_pension_raw demoChain =
      (([demoRecord]).map (fun r => r.calculate_unit)).sum ∧
    total_pension_raw (initialChain demoTs) = 0 :=
  aggregation demoTs ([] ++ [demoRecord]) demoChain
    (Builds.snoc Builds.nil rfl)

/-- C5: no clamping — if the raw total is positive, retirement is early, and
`(npa - retire_age) * reduction_rate` exceeds 1, the final pension is strictly
negative. -/
theorem no_clamping (chain : List Block) (npa retire_age : Int) (rr : ℚ)
    (hraw : 0 < total_pension_raw chain) (hearly : retire_age < npa)
    (hbig : 1 < ((npa - retire_age : Int) : ℚ) * rr) :
    (computeProjection chain npa retire_age rr).finalPension < 0 := by
  simp only [computeProjection, if_pos hearly]
  show total_pension_raw chain *
    (1 - ((npa - retire_age : Int) : ℚ) * rr) < 0
  have hneg : (1 - ((npa - retire_age : Int) : ℚ) * rr) < 0 := by linarith
  exact mul_neg_of_pos_of_neg hraw hneg

/-- Witness for C5: retiring 27 years early at 4%/year gives a 108% reduction
and a negative payout on a ledger with one positive record. -/
theorem no_clamping_witness :
    (computeProjection demoChain 67 40 (4/100)).finalPension < 0 :=
  no_clamping demoChain 67 40 (4/100)
    (by norm_num [demoChain, initialChain, total_pension_raw, demoRecord,
      PensionRecord.calculate_unit])
    (by norm_num) (by norm_num)

/-- C6: hash determinism and purity — the digest is a function of the block's
four fields only: any two blocks (two invocations) agreeing on index, record,
prev_hash and timestamp produce identical digests. -/
theorem hash_deterministic (b1 b2 : Block) (h1 : b1.index = b2.index)
    (h2 : b1.record = b2.record) (h3 : b1.prev_hash = b2.prev_hash)
    (h4 : b1.timestamp = b2.timestamp) :
    Block.hash_block b1 = Block.hash_block b2 := by
  have hb : b1 = b2 := by
    cases b1
    cases b2
    simp_all
  rw [hb]

/-- Witness for C6 at two syntactically distinct but fieldwise-equal blocks. -/
theorem hash_deterministic_witness :
    Block.hash_block (genesisBlock demoTs) =
      Block.hash_block ⟨0, ⟨2023, 0, 0, 0⟩, "0", demoTs⟩ :=
  hash_deterministic (genesisBlock demoTs) ⟨0, ⟨2023, 0, 0, 0⟩, "0", demoTs⟩
    rfl rfl rfl rfl

/-- C7 counterexample: the hashed encoding concatenates `prev_hash` and
`timestamp` with no separator, so two distinct field tuples collide — the
encoding is not injective. -/
theorem encoding_collision :
    (⟨0, genesis_record, "a", "bc"⟩ : Block) ≠
      (⟨0, genesis_record, "ab", "c"⟩ : Block) ∧
    blockString ⟨0, genesis_record, "a", "bc"⟩ =
      blockString ⟨0, genesis_record, "ab", "c"⟩ := by
  constructor
  · intro h
    exact absurd (congrArg Block.prev_hash h) (by decide)
  · show (toString (0 : Nat) ++ reprRecord genesis_record ++ "a") ++ "bc" =
      (toString (0 : Nat) ++ reprRecord genesis_record ++ "ab") ++ "c"
    simp only [String.append_assoc]
    have hcat : ("a" ++ "bc" : String) = "ab" ++ "c" := rfl
    rw [hcat]

/-- C7 amended: the encoding is deterministic but not injective on full field
tuples (see the counterexample); it is injective in the `prev_hash` component
alone and in the `timestamp` component alone, the other fields held fixed. -/
theorem encoding_componentwise (i : Nat) (r : PensionRecord)
    (ph1 ph2 ts ph ts1 ts2 : String) :
    (blockString ⟨i, r, ph1, ts⟩ = blockString ⟨i, r, ph2, ts⟩ → ph1 = ph2) ∧
    (blockString ⟨i, r, ph, ts1⟩ = blockString ⟨i, r, ph, ts2⟩ →
      ts1 = ts2) := by
  constructor
  · intro h
    have h2 := congrArg String.data h
    simp only [blockString, String.data_append] at h2
    exact String.ext (List.append_cancel_left (List.append_cancel_right h2))
  · intro h
    have h2 := congrArg String.data h
    simp only [blockString, String.data_append] at h2
    exact String.ext (List.append_cancel_left h2)

/-- Witness for C7's amended theorem at concrete strings. -/
theorem encoding_componentwise_witness :
    ("p" : String) = "p" ∧ ("t" : String) = "t" :=
  ⟨(encoding_componentwise 0 genesis_record "p" "p" "t" "p" "t" "t").1 rfl,
   (encoding_componentwise 0 genesis_record "p" "p" "t" "p" "t" "t").2 rfl⟩

/-- C8: unit formula — `calculate_unit` is exactly
`salary * accrual_rate * (1 + cpi_index)` (a pure function of the record), and
on the record (2025, 50000, 1/49, 0.02) it yields 51000/49 ≈ 1040.8163. -/
theorem unit_formula :
    (∀ r : PensionRecord,
      r.calculate_unit = r.salary * r.accrual_rate * (1 + r.cpi_index)) ∧
    PensionRecord.calculate_unit ⟨2025, 50000, 1/49, 2/100⟩ = 51000/49 := by
  constructor
  · intro r
    rfl
  · norm_num [PensionRecord.calculate_unit]

/-- C1: chain-integrity state invariant — every ledger state reachable from
the genesis-only chain by appends starts with the genesis block (prev hash
"0", sentinel record with zero salary, accrual rate and CPI), every block's
index equals its position, and every non-genesis block's prev hash is the
recomputed hash of its predecessor. -/
theorem chain_integrity (ts : String) (chain : List Block)
    (h : Reachable ts chain) :
    (∃ hlen : 0 < chain.length,
      chain.get ⟨0, hlen⟩ = genesisBlock ts ∧
      (genesisBlock ts).prev_hash = "0" ∧
      (genesisBlock ts).record = genesis_record ∧
      genesis_record.salary = 0 ∧ genesis_record.accrual_rate = 0 ∧
      genesis_record.cpi_index = 0) ∧
    (∀ i (hi : i < chain.length), (chain.get ⟨i, hi⟩).index = i) ∧
    (∀ i (hi : i < chain.length), 0 < i →
      (chain.get ⟨i, hi⟩).prev_hash =
        Block.hash_block (chain.get ⟨i - 1, by omega⟩)) := by
  obtain ⟨rs, hb⟩ := h
  obtain ⟨tail, rfl, hok, -, -⟩ := builds_shape hb
  refine ⟨⟨by simp, rfl, rfl, rfl, rfl, rfl, rfl⟩, ?_, ?_⟩
  · intro i hi
    cases i with
    | zero => rfl
    | succ k =>
        have hx := chainOk_get_index hok k (by simpa using hi)
        rw [List.get_cons_succ, hx]
        omega
  · intro i hi hpos
    cases i with
    | zero => omega
    | succ k =>
        cases k with
        | zero =>
            cases tail with
            | nil => simp at hi
            | cons t tail2 =>
                obtain ⟨g1, g2, g3⟩ := hok
                simpa using g2
        | succ k2 =>
            simp only [Nat.add_sub_cancel]
            rw [List.get_cons_succ, List.get_cons_succ]
            exact chainOk_get_link hok k2
              (by simp only [List.length_cons] at hi; omega)

/-- Witness for C1: concrete facts about the two-block demo chain obtained by
applying the invariant. -/
theorem chain_integrity_witness :
    (∃ hlen : 0 < demoChain.length,
      demoChain.get ⟨0, hlen⟩ = genesisBlock demoTs) ∧
    (demoChain.get ⟨1, by decide⟩).index = 1 ∧
    (demoChain.get ⟨1, by decide⟩).prev_hash =
      Block.hash_block (demoChain.get ⟨0, by decide⟩) := by
  have h := chain_integrity demoTs demoChain
    ⟨[] ++ [demoRecord], Builds.snoc Builds.nil rfl⟩
  obtain ⟨hlen, hgen, -, -, -, -, -⟩ := h.1
  exact ⟨⟨hlen, hgen⟩, h.2.1 1 (by decide), h.2.2 1 (by decide) (by decide)⟩

/-- C2: verification contract (verify() itself is modelled from the spec,
as `verifyChain`) — every chain built by appends verifies, and replacing any
non-tail block by a block whose recomputed hash differs (or whose index field
differs, or — off genesis — whose prev-hash field differs) makes verification
fail and report the tampered position or its immediate successor, the first
point of divergence. -/
theorem verify_contract (ts : String) (chain : List Block)
    (h : Reachable ts chain) :
    verifyChain chain = none ∧
    ∀ i (hi : i + 1 < chain.length) (b' : Block),
      (Block.hash_block b' ≠ Block.hash_block (chain.get ⟨i, by omega⟩) ∨
       b'.index ≠ (chain.get ⟨i, by omega⟩).index ∨
       (1 ≤ i ∧ b'.prev_hash ≠ (chain.get ⟨i, by omega⟩).prev_hash)) →
      ∃ j, verifyChain (chain.set i b') = some j ∧ (j = i ∨ j = i + 1) := by
  obtain ⟨rs, hb⟩ := h
  obtain ⟨tail, rfl, hok, -, -⟩ := builds_shape hb
  constructor
  · rw [verifyChain_cons, if_pos (show (genesisBlock ts).index = 0 from rfl)]
    exact verifyGo_of_chainOk hok
  · intro i hi b' hd
    cases i with
    | zero =>
        rw [List.set_cons_zero]
        by_cases hidx : b'.index = 0
        · have hdh : Block.hash_block b' ≠
              Block.hash_block (genesisBlock ts) := by
            rcases hd with hx | hx | hx
            · exact hx
            · exact absurd hidx hx
            · exact absurd hx.1 (by omega)
          cases tail with
          | nil => simp at hi
          | cons t tail2 =>
              obtain ⟨g1, g2, g3⟩ := hok
              refine ⟨1, ?_, Or.inr rfl⟩
              rw [verifyChain_cons, if_pos hidx, verifyGo_cons, if_neg ?_]
              rintro ⟨-, hph⟩
              exact hdh (hph.symm.trans g2)
        · exact ⟨0, by rw [verifyChain_cons, if_neg hidx], Or.inl rfl⟩
    | succ k =>
        rw [List.set_cons_succ, verifyChain_cons,
          if_pos (show (genesisBlock ts).index = 0 from rfl)]
        have hk1 : k + 1 < tail.length := by
          simp only [List.length_cons] at hi
          omega
        obtain ⟨j, hj, hor⟩ := verifyGo_set hok k hk1 b' (by
          rcases hd with hx | hx | hx
          · exact Or.inl hx
          · exact Or.inr (Or.inl hx)
          · exact Or.inr (Or.inr hx.2))
        exact ⟨j, hj, by omega⟩

/-- Witness for C2: the one-append demo chain verifies, and replacing its
genesis block by a wrong-index block is detected at the start of the chain. -/
theorem verify_contract_witness :
    verifyChain demoChain = none ∧
    ∃ j, verifyChain (demoChain.set 0 tamperBlock) = some j ∧
      (j = 0 ∨ j = 0 + 1) := by
  have h := verify_contract demoTs demoChain
    ⟨[] ++ [demoRecord], Builds.snoc Builds.nil rfl⟩
  exact ⟨h.1, h.2 0 (by decide) tamperBlock (Or.inr (Or.inl (by decide)))⟩

/-- C9: append monotonicity — appending one record to a nonempty chain
succeeds, the new chain is the old one plus exactly the constructed block
(old blocks unchanged), its length grows by one, and the stored last block
has index `length - 1` and prev hash equal to the hash of the previously
last block. -/
theorem append_monotonic (ts : String) (chain : List Block)
    (r : PensionRecord) (h : chain ≠ []) :
    ∃ c', appendRecord ts chain r = some c' ∧
      c' = chain ++
        [⟨chain.length, r, Block.hash_block (chain.getLast h), ts⟩] ∧
      c'.length = chain.length + 1 ∧
      c'.getLast? = some (⟨chain.length, r,
        Block.hash_block (chain.getLast h), ts⟩ : Block) ∧
      (∀ hne : c' ≠ [], (c'.getLast hne).index = c'.length - 1) ∧
      c'.take chain.length = chain := by
  refine ⟨chain ++
    [⟨chain.length, r, Block.hash_block (chain.getLast h), ts⟩],
    ?_, rfl, ?_, ?_, ?_, ?_⟩
  · unfold appendRecord
    rw [List.getLast?_eq_getLast chain h]
  · simp
  · exact List.getLast?_concat chain
  · intro hne
    rw [List.getLast_concat]
    simp
  · exact List.take_left chain _

/-- Witness for C9: appending the demo record to the genesis-only chain. -/
theorem append_monotonic_witness :
    ∃ c', appendRecord demoTs (initialChain demoTs) demoRecord = some c' ∧
      c' = initialChain demoTs ++
        [⟨(initialChain demoTs).length, demoRecord,
          Block.hash_block
            ((initialChain demoTs).getLast (by simp [initialChain])),
          demoTs⟩] ∧
      c'.length = (initialChain demoTs).length + 1 ∧
      c'.getLast? = some (⟨(initialChain demoTs).length, demoRecord,
        Block.hash_block
          ((initialChain demoTs).getLast (by simp [initialChain])),
        demoTs⟩ : Block) ∧
      (∀ hne : c' ≠ [], (c'.getLast hne).index = c'.length - 1) ∧
      c'.take (initialChain demoTs).length = initialChain demoTs :=
  append_monotonic demoTs (initialChain demoTs) demoRecord
    (by simp [initialChain])

/-- A chain built under the per-rerun history is the genesis block of the
first run followed by blocks carrying, in order, the timestamp defaults of
their constructing reruns. -/
theorem buildsR_shape {ts0 : String} {steps : List (String × PensionRecord)}
    {c : List Block} (h : BuildsR ts0 steps c) :
    ∃ tail, c = genesisBlock ts0 :: tail ∧
      tail.map (fun b => b.timestamp) = steps.map (fun p => p.1) := by
  induction h with
  | nil => exact ⟨[], rfl, rfl⟩
  | snoc hb happ ih =>
      obtain ⟨tail, rfl, hts⟩ := ih
      obtain ⟨last, hlast, rfl⟩ := appendRecord_eq happ
      rw [List.cons_append]
      refine ⟨tail ++ [_], rfl, ?_⟩
      simp [hts]

/-- C10 counterexample: under the per-rerun semantics the claim is false —
a reachable two-block chain mixes timestamps, because the append's rerun
re-evaluated the class timestamp default.  The genesis block and the appended
block of `demoChainR` carry different timestamp strings. -/
theorem shared_timestamp_counterexample :
    BuildsR demoTs ([] ++ [(rerunTs, demoRecord)]) demoChainR ∧
    genesisBlock demoTs ∈ demoChainR ∧ rerunBlock ∈ demoChainR ∧
    (genesisBlock demoTs).timestamp ≠ rerunBlock.timestamp := by
  refine ⟨BuildsR.snoc BuildsR.nil rfl,
    by simp [demoChainR, initialChain], by simp [demoChainR], ?_⟩
  show demoTs ≠ rerunTs
  decide

/-- C10 amended: each block's timestamp is the class-default string evaluated
by the script run that constructed it — the genesis block carries the first
run's default, and the appended blocks carry, in chain order, the defaults of
their own reruns; all blocks share one timestamp only in the special case
that every involved run evaluated the same default. -/
theorem shared_timestamp_amended (ts0 : String)
    (steps : List (String × PensionRecord)) (c : List Block)
    (h : BuildsR ts0 steps c) :
    (∃ hlen : 0 < c.length, (c.get ⟨0, hlen⟩).timestamp = ts0) ∧
    (c.drop 1).map (fun b => b.timestamp) = steps.map (fun p => p.1) ∧
    ∀ ts, ts0 = ts → (∀ p ∈ steps, p.1 = ts) →
      ∀ b ∈ c, b.timestamp = ts := by
  obtain ⟨tail, rfl, hts⟩ := buildsR_shape h
  refine ⟨⟨by simp, rfl⟩, by simpa using hts, ?_⟩
  intro ts h0 hall b hb
  rcases List.mem_cons.mp hb with h1 | h1
  · rw [h1]
    exact h0
  · have hm : b.timestamp ∈ steps.map (fun p => p.1) := by
      rw [← hts]
      exact List.mem_map_of_mem _ h1
    obtain ⟨p, hp, he⟩ := List.mem_map.mp hm
    rw [← he]
    exact hall p hp

/-- Witness for C10's amended theorem on the concrete mixed-timestamp
chain. -/
theorem shared_timestamp_amended_witness :
    (∃ hlen : 0 < demoChainR.length,
      (demoChainR.get ⟨0, hlen⟩).timestamp = demoTs) ∧
    (demoChainR.drop 1).map (fun b => b.timestamp) =
      (([] ++ [(rerunTs, demoRecord)] :
        List (String × PensionRecord))).map (fun p => p.1) := by
  have h := shared_timestamp_amended demoTs ([] ++ [(rerunTs, demoRecord)])
    demoChainR (BuildsR.snoc BuildsR.nil rfl)
  exact ⟨h.1, h.2.1⟩

end PensionChain
